import Mathlib

/-!
Verification of the JSON-to-tree projection and event-loop dispatch of
json_viewer (src/main.rs).

The embedding mirrors the Rust source:
a JSON value (serde_json::Value, with numbers taken in the integral case,
rendered as serde_json renders i64) is projected to tui_tree_widget
TreeItem values by root_tree_items / tree_items / tree_items_obj /
tree_items_arr; the TreeItem constructor of the widget fails on duplicate
child identifiers, so the projection is Option-valued, none standing for
the panic of the .unwrap() calls in tree_items.  The event loop run_app
and main's exit behaviour are embedded parametrically in the tree-widget
state, since the widget's internal cursor mechanics are external to this
crate.
-/

/-- The shape of a decoded JSON document, mirroring serde_json::Value.
Numbers are modelled in the integral case (serde_json::Number holding an
i64); objects are ordered key-value sequences, as serde_json::Map iterates
them.  serde_json::Map cannot hold duplicate keys; in this wider model that
invariant is the predicate Json.wfKeys below. -/
inductive Json where
  | null
  | bool (b : Bool)
  | num (n : Int)
  | str (s : String)
  | arr (elems : List Json)
  | obj (entries : List (String × Json))
deriving Inhabited

/-- True exactly on the non-container shapes (string, number, boolean, null):
the cases falling to the wildcard arms of root_tree_items and tree_items. -/
def Json.isScalar : Json → Bool
  | .null => true
  | .bool _ => true
  | .num _ => true
  | .str _ => true
  | .arr _ => false
  | .obj _ => false

/-- JsonPointer (main.rs lines 18-24): the identity of a node relative to its
parent, with None as the distinguished root marker. -/
inductive JsonPointer where
  | ObjectKey (key : String)
  | ArrayIdx (index : Nat)
  | None
deriving DecidableEq, Repr

/-- The Rust derive(Default) puts the default on the None constructor. -/
instance : Inhabited JsonPointer := ⟨.None⟩

/-- JsonPointer::to_string (main.rs lines 26-34): the key verbatim, the index
in decimal, the empty string for None. -/
def JsonPointer.toStr : JsonPointer → String
  | .ObjectKey key => key
  | .ArrayIdx index => index.repr
  | .None => ""

/-- Equality of pointers spelled out case by case: same tag and equal
payloads, the specification of the derived PartialEq. -/
def JsonPointer.eqSpec : JsonPointer → JsonPointer → Prop
  | .ObjectKey a, .ObjectKey b => a = b
  | .ArrayIdx a, .ArrayIdx b => a = b
  | .None, .None => True
  | _, _ => False

/-- The value stream the derived Hash implementation feeds to the hasher:
the variant discriminant followed by the payload. -/
def JsonPointer.hashFeed : JsonPointer → List Nat
  | .ObjectKey key => 0 :: key.toList.map Char.toNat
  | .ArrayIdx index => [1, index]
  | .None => [2]

/-- A tree-widget item: its identifier segment, display text and children
(tui_tree_widget::TreeItem with text flattened to the string it displays). -/
inductive TreeItem where
  | mk (identifier : JsonPointer) (text : String) (children : List TreeItem)

/-- The identifier component of an item. -/
def TreeItem.identifier : TreeItem → JsonPointer
  | .mk identifier _ _ => identifier

/-- The display text of an item. -/
def TreeItem.text : TreeItem → String
  | .mk _ text _ => text

/-- The child items of an item. -/
def TreeItem.children : TreeItem → List TreeItem
  | .mk _ _ children => children

/-- TreeItem::new of tui_tree_widget: constructs an item with children,
failing (std::io::Error, unwrapped in tree_items) when two children share an
identifier.  TreeItem::new_leaf is the children := [] case and cannot fail. -/
def TreeItem.new (identifier : JsonPointer) (text : String) (children : List TreeItem) :
    Option TreeItem :=
  if (children.map TreeItem.identifier).Nodup then some (.mk identifier text children) else none

mutual
/-- All sibling identifier lists inside the item are duplicate-free: the
widget invariant TreeItem::new enforces level by level. -/
def wfItem : TreeItem → Bool
  | .mk _ _ children => decide ((children.map TreeItem.identifier).Nodup) && wfList children
/-- wfItem holding of every item of the list. -/
def wfList : List TreeItem → Bool
  | [] => true
  | t :: ts => wfItem t && wfList ts
end

mutual
/-- Every identifier occurring in the item: its own, then all identifiers
below it. -/
def idsItem : TreeItem → List JsonPointer
  | .mk identifier _ children => identifier :: idsList children
/-- All identifiers occurring in a forest of items. -/
def idsList : List TreeItem → List JsonPointer
  | [] => []
  | t :: ts => idsItem t ++ idsList ts
end

/-- Lower-case hex digit, as serde_json writes control-character escapes. -/
def hexDigit (n : Nat) : Char :=
  if n < 10 then Char.ofNat (48 + n) else Char.ofNat (87 + n)

/-- One character of a JSON string, escaped exactly as serde_json's compact
formatter does: the named short escapes, \u00XX for the remaining control
characters, everything else verbatim. -/
def escapeChar (c : Char) : String :=
  if c = '"' then "\\\""
  else if c = '\\' then "\\\\"
  else if c = Char.ofNat 8 then "\\b"
  else if c = '\t' then "\\t"
  else if c = '\n' then "\\n"
  else if c = Char.ofNat 12 then "\\f"
  else if c = '\r' then "\\r"
  else if c.toNat < 32 then
    "\\u00" ++ String.mk [hexDigit (c.toNat / 16), hexDigit (c.toNat % 16)]
  else String.singleton c

/-- A JSON string literal: quotes around the escaped characters. -/
def renderString (s : String) : String :=
  "\"" ++ String.join (s.toList.map escapeChar) ++ "\""

mutual
/-- The JSON text of a value, as serde_json's Display (compact form) renders
it; this is what value.to_string() and the "{value}" interpolation in
tree_items produce.  Integers render as their decimal representation. -/
def render : Json → String
  | .null => "null"
  | .bool true => "true"
  | .bool false => "false"
  | .num n => n.repr
  | .str s => renderString s
  | .arr elems => "[" ++ renderArr elems ++ "]"
  | .obj entries => "\x7b" ++ renderObj entries ++ "\x7d"
/-- Comma-separated rendering of array elements. -/
def renderArr : List Json → String
  | [] => ""
  | [v] => render v
  | v :: w :: rest => render v ++ "," ++ renderArr (w :: rest)
/-- Comma-separated rendering of object members. -/
def renderObj : List (String × Json) → String
  | [] => ""
  | [(k, v)] => renderString k ++ ":" ++ render v
  | (k, v) :: e :: rest => renderString k ++ ":" ++ render v ++ "," ++ renderObj (e :: rest)
end

mutual
/-- tree_items (main.rs lines 76-91): one node per value.  A container keeps
its key as label and projects its members as children through TreeItem::new;
none models the panic of the .unwrap() there when that constructor fails.  A
scalar becomes a leaf labelled "<key>: <value as JSON text>". -/
def tree_items (key : JsonPointer) (value : Json) : Option TreeItem :=
  match value with
  | .obj object => (tree_items_obj object).bind fun children =>
      TreeItem.new key key.toStr children
  | .arr array => (tree_items_arr 0 array).bind fun children =>
      TreeItem.new key key.toStr children
  | v => some (.mk key (key.toStr ++ ": " ++ render v) [])
/-- tree_items_obj (main.rs lines 93-98): each object entry in iteration
order, keyed by JsonPointer::ObjectKey of its key. -/
def tree_items_obj : List (String × Json) → Option (List TreeItem)
  | [] => some []
  | (k, v) :: rest => (tree_items (.ObjectKey k) v).bind fun t =>
      (tree_items_obj rest).bind fun ts => some (t :: ts)
/-- tree_items_arr (main.rs lines 100-106): each array element in index
order, keyed by JsonPointer::ArrayIdx of its enumerate index, counted here
from the explicit start index of the recursion. -/
def tree_items_arr (index : Nat) : List Json → Option (List TreeItem)
  | [] => some []
  | v :: rest => (tree_items (.ArrayIdx index) v).bind fun t =>
      (tree_items_arr (index + 1) rest).bind fun ts => some (t :: ts)
end

/-- root_tree_items (main.rs lines 68-74): an object or array root projects
its entries directly as the top-level sequence; any scalar root becomes a
single leaf addressed by the None marker and labelled with its JSON text. -/
def root_tree_items (root : Json) : Option (List TreeItem) :=
  match root with
  | .obj object => tree_items_obj object
  | .arr array => tree_items_arr 0 array
  | _ => some [.mk .None (render root) []]

mutual
/-- The serde_json::Map invariant transported to this list model: every
object in the value has duplicate-free keys. -/
def Json.wfKeys : Json → Bool
  | .null => true
  | .bool _ => true
  | .num _ => true
  | .str _ => true
  | .arr elems => Json.wfKeysArr elems
  | .obj entries => decide ((entries.map Prod.fst).Nodup) && Json.wfKeysObj entries
/-- Json.wfKeys holding of every element of an array. -/
def Json.wfKeysArr : List Json → Bool
  | [] => true
  | v :: rest => v.wfKeys && Json.wfKeysArr rest
/-- Json.wfKeys holding of every member value of an object. -/
def Json.wfKeysObj : List (String × Json) → Bool
  | [] => true
  | kv :: rest => kv.2.wfKeys && Json.wfKeysObj rest
end

mutual
/-- Modelled from the spec: the flattening algorithm of section 4.2,
implemented by the excluded tui_tree_widget renderer — a depth-first
pre-order walk emitting each item's row and, exactly when the item's
identifier path is in the expanded set, the rows of its children right
after it. -/
def flattenItem (above : List JsonPointer) (expanded : List (List JsonPointer))
    (t : TreeItem) : List String :=
  match t with
  | .mk identifier text children =>
    text :: (if expanded.contains (above ++ [identifier]) then
      flattenItems (above ++ [identifier]) expanded children else [])
/-- Modelled from the spec: flattening of a forest, in order. -/
def flattenItems (above : List JsonPointer) (expanded : List (List JsonPointer)) :
    List TreeItem → List String
  | [] => []
  | t :: ts => flattenItem above expanded t ++ flattenItems above expanded ts
end

/-- The key codes run_app distinguishes (crossterm::event::KeyCode, the
variants the match in main.rs lines 156-180 can see). -/
inductive KeyCode where
  | Ch (c : Char)
  | Enter
  | Left
  | Right
  | Down
  | Up
  | Home
  | KEnd
  | PageDown
  | PageUp
  | F (n : Nat)
  | Other
deriving DecidableEq, Repr

/-- Mouse event kinds distinguished by run_app (main.rs lines 181-185). -/
inductive MouseKind where
  | ScrollDown
  | ScrollUp
  | Other
deriving DecidableEq, Repr

/-- One input event: a key press, a mouse event, or anything else
(crossterm::event::Event as run_app matches it). -/
inductive Event where
  | Key (code : KeyCode)
  | Mouse (kind : MouseKind)
  | Other
deriving DecidableEq, Repr

/-- The operations run_app invokes on the widget's TreeState.  Their
behaviour lives in the excluded tui_tree_widget crate, so the embedding is
parametric in them: every theorem below holds for every implementation. -/
structure TreeOps (S : Type) where
  toggle_selected : S → S
  key_left : S → S
  key_right : S → S
  key_down : S → List TreeItem → S
  key_up : S → List TreeItem → S
  select_first : S → List TreeItem → S
  select_last : S → List TreeItem → S
  scroll_down : S → Nat → S
  scroll_up : S → Nat → S

/-- App (main.rs lines 52-66): the widget state, the immutable projected
items, and the command-popup flag. -/
structure App (S : Type) where
  state : S
  items : List TreeItem
  show_cmd_popup : Bool

/-- App::new: fresh widget state, given items, popup hidden. -/
def App.new {S : Type} (s0 : S) (items : List TreeItem) : App S :=
  ⟨s0, items, false⟩

/-- One iteration of run_app's event dispatch (main.rs lines 155-187): none
models the return Ok(()) taken on the quit key; every other event maps to
the new App.  The draw call and the poll timeout do not touch the state. -/
def handleEvent {S : Type} (ops : TreeOps S) (app : App S) (e : Event) : Option (App S) :=
  match e with
  | .Key code =>
    match code with
    | .Ch 'q' => none
    | .Enter => some { app with state := ops.toggle_selected app.state }
    | .Ch ' ' => some { app with state := ops.toggle_selected app.state }
    | .Left => some { app with state := ops.key_left app.state }
    | .Right => some { app with state := ops.key_right app.state }
    | .Down => some { app with state := ops.key_down app.state app.items }
    | .Up => some { app with state := ops.key_up app.state app.items }
    | .Home => some { app with state := ops.select_first app.state app.items }
    | .KEnd => some { app with state := ops.select_last app.state app.items }
    | .PageDown => some { app with state := ops.scroll_down app.state 3 }
    | .PageUp => some { app with state := ops.scroll_up app.state 3 }
    | .Ch 'c' => some { app with show_cmd_popup := !app.show_cmd_popup }
    | _ => some app
  | .Mouse .ScrollDown => some { app with state := ops.scroll_down app.state 1 }
  | .Mouse .ScrollUp => some { app with state := ops.scroll_up app.state 1 }
  | .Mouse _ => some app
  | .Other => some app

/-- How a finite run of the loop ends: quitOk when the quit key made run_app
return Ok(()), pending when the supplied events ran out with the loop still
alive. -/
inductive LoopEnd (S : Type) where
  | quitOk (a : App S)
  | pending (a : App S)

/-- run_app (main.rs lines 108-190) over a finite queue of input events:
dispatch each event in order until the quit key ends the loop. -/
def run_app {S : Type} (ops : TreeOps S) (app : App S) : List Event → LoopEnd S
  | [] => .pending app
  | e :: rest =>
    match handleEvent ops app e with
    | none => .quitOk app
    | some app2 => run_app ops app2 rest

/-- main (main.rs lines 208-242) as an exit-status function: a read or parse
failure propagates through the question-mark operator, main returns Err and
the process exits nonzero (that is, 1); otherwise the items are projected
(none, the projection panic, yields no normal exit status) and run_app runs;
reaching quitOk means run_app returned Ok(()), main falls through teardown
and returns Ok, exit status 0.  A run whose events are exhausted without the
quit key has not exited, hence no status. -/
def mainExit {S : Type} (ops : TreeOps S) (s0 : S) (input : Except String Json)
    (events : List Event) : Option Nat :=
  match input with
  | .error _ => some 1
  | .ok v =>
    match root_tree_items v with
    | none => none
    | some items =>
      match run_app ops (App.new s0 items) events with
      | .quitOk _ => some 0
      | .pending _ => none

/-- A trivial widget-state implementation over Unit, used to instantiate the
parametric event-loop theorems on concrete runs. -/
def unitOps : TreeOps Unit :=
  ⟨fun s => s, fun s => s, fun s => s, fun s _ => s, fun s _ => s, fun s _ => s,
    fun s _ => s, fun s _ => s, fun s _ => s⟩

/-- Scenario A input of the spec: the document with "a" mapped to 1 and "b"
mapped to the array of 2 and 3. -/
def scenario_value : Json :=
  .obj [("a", .num 1), ("b", .arr [.num 2, .num 3])]

/-- The projection of scenario_value, written out. -/
def scenario_items : List TreeItem :=
  [.mk (.ObjectKey "a") "a: 1" [],
    .mk (.ObjectKey "b") "b" [.mk (.ArrayIdx 0) "0: 2" [], .mk (.ArrayIdx 1) "1: 3" []]]

/-- Structural induction for the nested Json type, with list membership
giving the hypotheses for array elements and object member values. -/
theorem Json.inductionOn {P : Json → Prop} (hnull : P .null) (hbool : ∀ b, P (.bool b))
    (hnum : ∀ n, P (.num n)) (hstr : ∀ s, P (.str s))
    (harr : ∀ elems, (∀ v ∈ elems, P v) → P (.arr elems))
    (hobj : ∀ entries, (∀ kv ∈ entries, P kv.2) → P (.obj entries)) :
    ∀ v, P v
  | .null => hnull
  | .bool b => hbool b
  | .num n => hnum n
  | .str s => hstr s
  | .arr elems => harr elems fun v hv =>
      Json.inductionOn hnull hbool hnum hstr harr hobj v
  | .obj entries => hobj entries fun kv hkv =>
      Json.inductionOn hnull hbool hnum hstr harr hobj kv.2
termination_by v => sizeOf v
decreasing_by
· have h1 := List.sizeOf_lt_of_mem hv
  simp only [Json.arr.sizeOf_spec]
  omega
· have h1 := List.sizeOf_lt_of_mem hkv
  have h2 : sizeOf kv.2 < sizeOf kv := by
    obtain ⟨a, b⟩ := kv
    simp only [Prod.mk.sizeOf_spec]
    omega
  simp only [Json.obj.sizeOf_spec]
  omega

/-- A successfully projected node carries exactly the key it was projected
under as its identifier. -/
theorem tree_items_identifier (key : JsonPointer) (v : Json) (t : TreeItem)
    (h : tree_items key v = some t) : t.identifier = key := by
  cases v with
  | obj entries =>
    simp only [tree_items, Option.bind_eq_some] at h
    obtain ⟨ts, -, hnew⟩ := h
    unfold TreeItem.new at hnew
    split at hnew
    · simp only [Option.some.injEq] at hnew
      subst hnew
      rfl
    · exact Option.noConfusion hnew
  | arr elems =>
    simp only [tree_items, Option.bind_eq_some] at h
    obtain ⟨ts, -, hnew⟩ := h
    unfold TreeItem.new at hnew
    split at hnew
    · simp only [Option.some.injEq] at hnew
      subst hnew
      rfl
    · exact Option.noConfusion hnew
  | null =>
    simp only [tree_items, Option.some.injEq] at h
    subst h
    rfl
  | bool b =>
    simp only [tree_items, Option.some.injEq] at h
    subst h
    rfl
  | num n =>
    simp only [tree_items, Option.some.injEq] at h
    subst h
    rfl
  | str s =>
    simp only [tree_items, Option.some.injEq] at h
    subst h
    rfl

/-- The object projection, when it succeeds, is pointwise the projection of
the corresponding entry and leaves the length unchanged. -/
theorem tree_items_obj_get : ∀ (entries : List (String × Json)) (ts : List TreeItem),
    tree_items_obj entries = some ts →
      ts.length = entries.length ∧
        ∀ (i : Nat) (kv : String × Json), entries[i]? = some kv →
          tree_items (.ObjectKey kv.1) kv.2 = ts[i]? := by
  intro entries
  induction entries with
  | nil =>
    intro ts h
    simp only [tree_items_obj, Option.some.injEq] at h
    subst h
    exact ⟨rfl, by intro i kv hkv; simp at hkv⟩
  | cons kv0 rest ih =>
    obtain ⟨k, v⟩ := kv0
    intro ts h
    simp only [tree_items_obj, Option.bind_eq_some, Option.some.injEq] at h
    obtain ⟨t, ht, ts2, hts2, hcons⟩ := h
    subst hcons
    obtain ⟨hlen, hget⟩ := ih ts2 hts2
    refine ⟨by simp [hlen], ?_⟩
    intro i kv hkv
    match i with
    | 0 =>
      simp only [List.getElem?_cons_zero, Option.some.injEq] at hkv
      subst hkv
      simpa using ht
    | i + 1 =>
      simp only [List.getElem?_cons_succ] at hkv ⊢
      exact hget i kv hkv

/-- The array projection from any start index, when it succeeds, is pointwise
the projection of the corresponding element under the shifted index. -/
theorem tree_items_arr_get : ∀ (elems : List Json) (n : Nat) (ts : List TreeItem),
    tree_items_arr n elems = some ts →
      ts.length = elems.length ∧
        ∀ (i : Nat) (v : Json), elems[i]? = some v →
          tree_items (.ArrayIdx (n + i)) v = ts[i]? := by
  intro elems
  induction elems with
  | nil =>
    intro n ts h
    simp only [tree_items_arr, Option.some.injEq] at h
    subst h
    exact ⟨rfl, by intro i v hv; simp at hv⟩
  | cons v0 rest ih =>
    intro n ts h
    simp only [tree_items_arr, Option.bind_eq_some, Option.some.injEq] at h
    obtain ⟨t, ht, ts2, hts2, hcons⟩ := h
    subst hcons
    obtain ⟨hlen, hget⟩ := ih (n + 1) ts2 hts2
    refine ⟨by simp [hlen], ?_⟩
    intro i v hv
    match i with
    | 0 =>
      simp only [List.getElem?_cons_zero, Option.some.injEq] at hv
      subst hv
      simpa using ht
    | i + 1 =>
      simp only [List.getElem?_cons_succ] at hv ⊢
      have hidx : n + (i + 1) = n + 1 + i := by omega
      rw [hidx]
      exact hget i v hv

/-- Identifiers of a successful object projection: the ObjectKey of each key,
in order. -/
theorem tree_items_obj_ids : ∀ (entries : List (String × Json)) (ts : List TreeItem),
    tree_items_obj entries = some ts →
      ts.map TreeItem.identifier = entries.map fun kv => JsonPointer.ObjectKey kv.1 := by
  intro entries
  induction entries with
  | nil =>
    intro ts h
    simp only [tree_items_obj, Option.some.injEq] at h
    subst h
    rfl
  | cons kv0 rest ih =>
    obtain ⟨k, v⟩ := kv0
    intro ts h
    simp only [tree_items_obj, Option.bind_eq_some, Option.some.injEq] at h
    obtain ⟨t, ht, ts2, hts2, hcons⟩ := h
    subst hcons
    simp only [List.map_cons]
    rw [tree_items_identifier _ _ _ ht, ih ts2 hts2]

/-- Identifiers of a successful array projection from start index n: the
ArrayIdx of n, n+1, and so on, one per element. -/
theorem tree_items_arr_ids : ∀ (elems : List Json) (n : Nat) (ts : List TreeItem),
    tree_items_arr n elems = some ts →
      ts.map TreeItem.identifier = (List.range' n elems.length).map JsonPointer.ArrayIdx := by
  intro elems
  induction elems with
  | nil =>
    intro n ts h
    simp only [tree_items_arr, Option.some.injEq] at h
    subst h
    rfl
  | cons v0 rest ih =>
    intro n ts h
    simp only [tree_items_arr, Option.bind_eq_some, Option.some.injEq] at h
    obtain ⟨t, ht, ts2, hts2, hcons⟩ := h
    subst hcons
    simp only [List.length_cons, List.range'_succ, List.map_cons]
    rw [tree_items_identifier _ _ _ ht, ih (n + 1) ts2 hts2]

/-- The object projection succeeds whenever each member value projects. -/
theorem tree_items_obj_total : ∀ (entries : List (String × Json)),
    (∀ kv ∈ entries, ∀ key, ∃ t, tree_items key kv.2 = some t) →
      ∃ ts, tree_items_obj entries = some ts := by
  intro entries
  induction entries with
  | nil => exact fun _ => ⟨[], rfl⟩
  | cons kv0 rest ih =>
    intro IH
    obtain ⟨k, v⟩ := kv0
    obtain ⟨t, ht⟩ := IH (k, v) (List.mem_cons_self _ _) (.ObjectKey k)
    obtain ⟨ts, hts⟩ := ih fun x hx => IH x (List.mem_cons_of_mem _ hx)
    exact ⟨t :: ts, by simp [tree_items_obj, ht, hts]⟩

/-- The array projection succeeds from any start index whenever each element
projects. -/
theorem tree_items_arr_total : ∀ (elems : List Json),
    (∀ v ∈ elems, ∀ key, ∃ t, tree_items key v = some t) →
      ∀ n, ∃ ts, tree_items_arr n elems = some ts := by
  intro elems
  induction elems with
  | nil => exact fun _ _ => ⟨[], rfl⟩
  | cons v0 rest ih =>
    intro IH n
    obtain ⟨t, ht⟩ := IH v0 (List.mem_cons_self _ _) (.ArrayIdx n)
    obtain ⟨ts, hts⟩ := ih (fun x hx => IH x (List.mem_cons_of_mem _ hx)) (n + 1)
    exact ⟨t :: ts, by simp [tree_items_arr, ht, hts]⟩

/-- ObjectKey is injective. -/
theorem objectKey_injective : Function.Injective JsonPointer.ObjectKey := by
  intro a b h
  cases h
  rfl

/-- ArrayIdx is injective. -/
theorem arrayIdx_injective : Function.Injective JsonPointer.ArrayIdx := by
  intro a b h
  cases h
  rfl

/-- Each element of a well-keyed array is well-keyed. -/
theorem wfKeysArr_mem : ∀ (elems : List Json), Json.wfKeysArr elems = true →
    ∀ v ∈ elems, v.wfKeys = true := by
  intro elems
  induction elems with
  | nil => intro _ v hv; cases hv
  | cons w ws ih =>
    intro hw v hv
    simp only [Json.wfKeysArr, Bool.and_eq_true] at hw
    rcases List.mem_cons.mp hv with h | h
    · subst h; exact hw.1
    · exact ih hw.2 v h

/-- Each member value of a well-keyed object is well-keyed. -/
theorem wfKeysObj_mem : ∀ (entries : List (String × Json)), Json.wfKeysObj entries = true →
    ∀ kv ∈ entries, kv.2.wfKeys = true := by
  intro entries
  induction entries with
  | nil => intro _ kv hkv; cases hkv
  | cons w ws ih =>
    intro hw kv hkv
    simp only [Json.wfKeysObj, Bool.and_eq_true] at hw
    rcases List.mem_cons.mp hkv with h | h
    · subst h; exact hw.1
    · exact ih hw.2 kv h

/-- Under the unique-keys invariant every value projects: the failure branch
of the TreeItem::new unwrap in tree_items is never taken. -/
theorem tree_items_total : ∀ v : Json, v.wfKeys = true →
    ∀ key, ∃ t, tree_items key v = some t := by
  intro v
  induction v using Json.inductionOn with
  | hnull => exact fun _ key => ⟨_, rfl⟩
  | hbool b => exact fun _ key => ⟨_, rfl⟩
  | hnum n => exact fun _ key => ⟨_, rfl⟩
  | hstr s => exact fun _ key => ⟨_, rfl⟩
  | harr elems IH =>
    intro hw key
    have hwArr : Json.wfKeysArr elems = true := by
      simpa only [Json.wfKeys] using hw
    have hall : ∀ v ∈ elems, ∀ k, ∃ t, tree_items k v = some t := by
      intro v hv k
      exact IH v hv (wfKeysArr_mem elems hwArr v hv) k
    obtain ⟨ts, hts⟩ := tree_items_arr_total elems hall 0
    have hids := tree_items_arr_ids elems 0 ts hts
    have hnodup : (ts.map TreeItem.identifier).Nodup := by
      rw [hids]
      exact (List.nodup_range' 0 elems.length).map arrayIdx_injective
    refine ⟨.mk key key.toStr ts, ?_⟩
    simp [tree_items, hts, TreeItem.new, hnodup]
  | hobj entries IH =>
    intro hw key
    simp only [Json.wfKeys, Bool.and_eq_true, decide_eq_true_eq] at hw
    obtain ⟨hkeys, hwObj⟩ := hw
    have hall : ∀ kv ∈ entries, ∀ k, ∃ t, tree_items k kv.2 = some t := by
      intro kv hkv k
      exact IH kv hkv (wfKeysObj_mem entries hwObj kv hkv) k
    obtain ⟨ts, hts⟩ := tree_items_obj_total entries hall
    have hids := tree_items_obj_ids entries ts hts
    have hnodup : (ts.map TreeItem.identifier).Nodup := by
      rw [hids]
      have : (entries.map fun kv => JsonPointer.ObjectKey kv.1) =
          (entries.map Prod.fst).map JsonPointer.ObjectKey := by
        simp [List.map_map]
      rw [this]
      exact hkeys.map objectKey_injective
    refine ⟨.mk key key.toStr ts, ?_⟩
    simp [tree_items, hts, TreeItem.new, hnodup]

/-- Under the unique-keys invariant the whole-document projection succeeds. -/
theorem root_tree_items_total (v : Json) (hw : v.wfKeys = true) :
    ∃ items, root_tree_items v = some items := by
  cases v with
  | obj entries =>
    simp only [Json.wfKeys, Bool.and_eq_true, decide_eq_true_eq] at hw
    refine tree_items_obj_total entries ?_
    intro kv hkv k
    exact tree_items_total kv.2 (wfKeysObj_mem entries hw.2 kv hkv) k
  | arr elems =>
    simp only [Json.wfKeys] at hw
    refine tree_items_arr_total elems ?_ 0
    intro v hv k
    exact tree_items_total v (wfKeysArr_mem elems hw v hv) k
  | null => exact ⟨_, rfl⟩
  | bool b => exact ⟨_, rfl⟩
  | num n => exact ⟨_, rfl⟩
  | str s => exact ⟨_, rfl⟩

/-- Every successful member-wise object projection yields a well-formed
forest, given well-formedness of each member's projection. -/
theorem tree_items_obj_wfList : ∀ (entries : List (String × Json)),
    (∀ kv ∈ entries, ∀ key t, tree_items key kv.2 = some t → wfItem t = true) →
      ∀ ts, tree_items_obj entries = some ts → wfList ts = true := by
  intro entries
  induction entries with
  | nil =>
    intro _ ts h
    simp only [tree_items_obj, Option.some.injEq] at h
    subst h
    rfl
  | cons kv0 rest ih =>
    intro IH ts h
    obtain ⟨k, v⟩ := kv0
    simp only [tree_items_obj, Option.bind_eq_some, Option.some.injEq] at h
    obtain ⟨t, ht, ts2, hts2, hcons⟩ := h
    subst hcons
    have h1 := IH (k, v) (List.mem_cons_self _ _) (.ObjectKey k) t ht
    have h2 := ih (fun x hx => IH x (List.mem_cons_of_mem _ hx)) ts2 hts2
    simp [wfList, h1, h2]

/-- Every successful element-wise array projection yields a well-formed
forest, given well-formedness of each element's projection. -/
theorem tree_items_arr_wfList : ∀ (elems : List Json),
    (∀ v ∈ elems, ∀ key t, tree_items key v = some t → wfItem t = true) →
      ∀ n ts, tree_items_arr n elems = some ts → wfList ts = true := by
  intro elems
  induction elems with
  | nil =>
    intro _ n ts h
    simp only [tree_items_arr, Option.some.injEq] at h
    subst h
    rfl
  | cons v0 rest ih =>
    intro IH n ts h
    simp only [tree_items_arr, Option.bind_eq_some, Option.some.injEq] at h
    obtain ⟨t, ht, ts2, hts2, hcons⟩ := h
    subst hcons
    have h1 := IH v0 (List.mem_cons_self _ _) (.ArrayIdx n) t ht
    have h2 := ih (fun x hx => IH x (List.mem_cons_of_mem _ hx)) (n + 1) ts2 hts2
    simp [wfList, h1, h2]

/-- Every node the projection builds satisfies the sibling-uniqueness
invariant at every level: TreeItem::new checks it wherever children attach. -/
theorem tree_items_wf : ∀ (v : Json) (key : JsonPointer) (t : TreeItem),
    tree_items key v = some t → wfItem t = true := by
  intro v
  induction v using Json.inductionOn with
  | hnull =>
    intro key t h
    simp only [tree_items, Option.some.injEq] at h
    subst h
    rfl
  | hbool b =>
    intro key t h
    simp only [tree_items, Option.some.injEq] at h
    subst h
    rfl
  | hnum n =>
    intro key t h
    simp only [tree_items, Option.some.injEq] at h
    subst h
    rfl
  | hstr s =>
    intro key t h
    simp only [tree_items, Option.some.injEq] at h
    subst h
    rfl
  | harr elems IH =>
    intro key t h
    simp only [tree_items, Option.bind_eq_some] at h
    obtain ⟨ts, hts, hnew⟩ := h
    unfold TreeItem.new at hnew
    split at hnew
    next hnodup =>
      simp only [Option.some.injEq] at hnew
      subst hnew
      have hwf := tree_items_arr_wfList elems
        (fun v hv key2 t2 ht2 => IH v hv key2 t2 ht2) 0 ts hts
      simp [wfItem, hnodup, hwf]
    next => exact Option.noConfusion hnew
  | hobj entries IH =>
    intro key t h
    simp only [tree_items, Option.bind_eq_some] at h
    obtain ⟨ts, hts, hnew⟩ := h
    unfold TreeItem.new at hnew
    split at hnew
    next hnodup =>
      simp only [Option.some.injEq] at hnew
      subst hnew
      have hwf := tree_items_obj_wfList entries
        (fun kv hkv key2 t2 ht2 => IH kv hkv key2 t2 ht2) ts hts
      simp [wfItem, hnodup, hwf]
    next => exact Option.noConfusion hnew

/-- No identifier inside a successful member-wise object projection is the
None marker, given the same for each member's projection. -/
theorem tree_items_obj_noNone : ∀ (entries : List (String × Json)),
    (∀ kv ∈ entries, ∀ key t, tree_items key kv.2 = some t →
        JsonPointer.None ∉ idsList t.children) →
      ∀ ts, tree_items_obj entries = some ts → JsonPointer.None ∉ idsList ts := by
  intro entries
  induction entries with
  | nil =>
    intro _ ts h
    simp only [tree_items_obj, Option.some.injEq] at h
    subst h
    simp [idsList]
  | cons kv0 rest ih =>
    intro IH ts h
    obtain ⟨k, v⟩ := kv0
    simp only [tree_items_obj, Option.bind_eq_some, Option.some.injEq] at h
    obtain ⟨t, ht, ts2, hts2, hcons⟩ := h
    subst hcons
    have hid := tree_items_identifier _ _ _ ht
    have h1 := IH (k, v) (List.mem_cons_self _ _) (.ObjectKey k) t ht
    have h2 := ih (fun x hx => IH x (List.mem_cons_of_mem _ hx)) ts2 hts2
    intro hmem
    simp only [idsList] at hmem
    rcases List.mem_append.mp hmem with hmem | hmem
    · cases t with
      | mk idf text children =>
        simp only [TreeItem.identifier] at hid
        subst hid
        simp only [idsItem, List.mem_cons] at hmem
        rcases hmem with hmem | hmem
        · exact JsonPointer.noConfusion hmem
        · exact h1 hmem
    · exact h2 hmem

/-- No identifier inside a successful element-wise array projection is the
None marker, given the same for each element's projection. -/
theorem tree_items_arr_noNone : ∀ (elems : List Json),
    (∀ v ∈ elems, ∀ key t, tree_items key v = some t →
        JsonPointer.None ∉ idsList t.children) →
      ∀ n ts, tree_items_arr n elems = some ts → JsonPointer.None ∉ idsList ts := by
  intro elems
  induction elems with
  | nil =>
    intro _ n ts h
    simp only [tree_items_arr, Option.some.injEq] at h
    subst h
    simp [idsList]
  | cons v0 rest ih =>
    intro IH n ts h
    simp only [tree_items_arr, Option.bind_eq_some, Option.some.injEq] at h
    obtain ⟨t, ht, ts2, hts2, hcons⟩ := h
    subst hcons
    have hid := tree_items_identifier _ _ _ ht
    have h1 := IH v0 (List.mem_cons_self _ _) (.ArrayIdx n) t ht
    have h2 := ih (fun x hx => IH x (List.mem_cons_of_mem _ hx)) (n + 1) ts2 hts2
    intro hmem
    simp only [idsList] at hmem
    rcases List.mem_append.mp hmem with hmem | hmem
    · cases t with
      | mk idf text children =>
        simp only [TreeItem.identifier] at hid
        subst hid
        simp only [idsItem, List.mem_cons] at hmem
        rcases hmem with hmem | hmem
        · exact JsonPointer.noConfusion hmem
        · exact h1 hmem
    · exact h2 hmem

/-- The None marker never occurs among the identifiers below a successfully
projected node: all recursion keys are ObjectKey or ArrayIdx values. -/
theorem tree_items_noNone : ∀ (v : Json) (key : JsonPointer) (t : TreeItem),
    tree_items key v = some t → JsonPointer.None ∉ idsList t.children := by
  intro v
  induction v using Json.inductionOn with
  | hnull =>
    intro key t h
    simp only [tree_items, Option.some.injEq] at h
    subst h
    simp [TreeItem.children, idsList]
  | hbool b =>
    intro key t h
    simp only [tree_items, Option.some.injEq] at h
    subst h
    simp [TreeItem.children, idsList]
  | hnum n =>
    intro key t h
    simp only [tree_items, Option.some.injEq] at h
    subst h
    simp [TreeItem.children, idsList]
  | hstr s =>
    intro key t h
    simp only [tree_items, Option.some.injEq] at h
    subst h
    simp [TreeItem.children, idsList]
  | harr elems IH =>
    intro key t h
    simp only [tree_items, Option.bind_eq_some] at h
    obtain ⟨ts, hts, hnew⟩ := h
    unfold TreeItem.new at hnew
    split at hnew
    · simp only [Option.some.injEq] at hnew
      subst hnew
      simpa [TreeItem.children] using tree_items_arr_noNone elems IH 0 ts hts
    · exact Option.noConfusion hnew
  | hobj entries IH =>
    intro key t h
    simp only [tree_items, Option.bind_eq_some] at h
    obtain ⟨ts, hts, hnew⟩ := h
    unfold TreeItem.new at hnew
    split at hnew
    · simp only [Option.some.injEq] at hnew
      subst hnew
      simpa [TreeItem.children] using tree_items_obj_noNone entries IH ts hts
    · exact Option.noConfusion hnew

/-- C1: a scalar value projected under an in-container address (an object key
or an array index) becomes a leaf whose label is the address — the key
verbatim, or the index in decimal — followed by ": " and the scalar's JSON
text. -/
theorem scalar_leaf_label (k : String) (i : Nat) (v : Json) (hv : v.isScalar = true) :
    tree_items (.ObjectKey k) v = some (.mk (.ObjectKey k) (k ++ ": " ++ render v) []) ∧
    tree_items (.ArrayIdx i) v = some (.mk (.ArrayIdx i) (i.repr ++ ": " ++ render v) []) := by
  cases v <;> simp_all [tree_items, Json.isScalar, JsonPointer.toStr]

/-- Witness for C1 at the key "x", the index 5 and the scalar true. -/
theorem scalar_leaf_label_witness :
    (Json.bool true).isScalar = true ∧
    (tree_items (.ObjectKey "x") (.bool true) =
        some (.mk (.ObjectKey "x") ("x" ++ ": " ++ render (.bool true)) []) ∧
      tree_items (.ArrayIdx 5) (.bool true) =
        some (.mk (.ArrayIdx 5) ((5 : Nat).repr ++ ": " ++ render (.bool true)) [])) :=
  ⟨rfl, scalar_leaf_label "x" 5 (.bool true) rfl⟩

/-- C2: an object or array root projects to the projection of its entries
directly, with no wrapper node; a scalar root projects to the single leaf
addressed by the None marker and labelled with its JSON text, so the input
42 yields exactly one leaf labelled "42". -/
theorem root_projection_shape (entries : List (String × Json)) (elems : List Json)
    (v : Json) (hv : v.isScalar = true) :
    root_tree_items (.obj entries) = tree_items_obj entries ∧
    root_tree_items (.arr elems) = tree_items_arr 0 elems ∧
    root_tree_items v = some [.mk .None (render v) []] ∧
    root_tree_items (.num 42) = some [.mk .None "42" []] := by
  refine ⟨rfl, rfl, ?_, rfl⟩
  cases v <;> simp_all [root_tree_items, Json.isScalar]

/-- Witness for C2 at a one-entry object, a one-element array and the scalar
string "s". -/
theorem root_projection_shape_witness :
    (Json.str "s").isScalar = true ∧
    (root_tree_items (.obj [("k", .null)]) = tree_items_obj [("k", .null)] ∧
      root_tree_items (.arr [.num 7]) = tree_items_arr 0 [.num 7] ∧
      root_tree_items (.str "s") = some [.mk .None (render (.str "s")) []] ∧
      root_tree_items (.num 42) = some [.mk .None "42" []]) :=
  ⟨rfl, root_projection_shape [("k", .null)] [.num 7] (.str "s") rfl⟩

/-- C3: a successful projection of an object or array has exactly one node
per entry, and the node at position i is the projection of the source entry
at position i — object entries in the object's order, array elements under
their own index. -/
theorem projection_order (entries : List (String × Json)) (elems : List Json) (i : Nat) :
    (∀ ts, tree_items_obj entries = some ts →
      ts.length = entries.length ∧
        ∀ kv, entries[i]? = some kv → tree_items (.ObjectKey kv.1) kv.2 = ts[i]?) ∧
    (∀ us, tree_items_arr 0 elems = some us →
      us.length = elems.length ∧
        ∀ v, elems[i]? = some v → tree_items (.ArrayIdx i) v = us[i]?) := by
  constructor
  · intro ts h
    obtain ⟨hlen, hget⟩ := tree_items_obj_get entries ts h
    exact ⟨hlen, fun kv hkv => hget i kv hkv⟩
  · intro us h
    obtain ⟨hlen, hget⟩ := tree_items_arr_get elems 0 us h
    refine ⟨hlen, fun v hv => ?_⟩
    have h2 := hget i v hv
    simpa using h2

/-- Witness for C3 at a two-entry object, a two-element array and index 1. -/
theorem projection_order_witness :
    tree_items_obj [("a", Json.num 1), ("b", Json.null)] =
        some [.mk (.ObjectKey "a") "a: 1" [], .mk (.ObjectKey "b") "b: null" []] ∧
    ([TreeItem.mk (.ObjectKey "a") "a: 1" [], .mk (.ObjectKey "b") "b: null" []]).length = 2 ∧
    tree_items (.ObjectKey "b") Json.null =
      ([TreeItem.mk (.ObjectKey "a") "a: 1" [], .mk (.ObjectKey "b") "b: null" []])[1]? ∧
    tree_items_arr 0 [Json.num 2, Json.num 3] =
        some [.mk (.ArrayIdx 0) "0: 2" [], .mk (.ArrayIdx 1) "1: 3" []] ∧
    ([TreeItem.mk (.ArrayIdx 0) "0: 2" [], .mk (.ArrayIdx 1) "1: 3" []]).length = 2 ∧
    tree_items (.ArrayIdx 1) (Json.num 3) =
      ([TreeItem.mk (.ArrayIdx 0) "0: 2" [], .mk (.ArrayIdx 1) "1: 3" []])[1]? := by
  have h := projection_order [("a", Json.num 1), ("b", Json.null)] [Json.num 2, Json.num 3] 1
  exact ⟨rfl, (h.1 _ rfl).1, (h.1 _ rfl).2 ("b", Json.null) rfl,
    rfl, (h.2 _ rfl).1, (h.2 _ rfl).2 (Json.num 3) rfl⟩

/-- C4: under the serde_json unique-keys invariant, a successful projection
has pairwise distinct identifiers among the top-level nodes and among the
children of every container node at every depth. -/
theorem sibling_ids_nodup (v : Json) (items : List TreeItem) (hw : v.wfKeys = true)
    (h : root_tree_items v = some items) :
    (items.map TreeItem.identifier).Nodup ∧ wfList items = true := by
  cases v with
  | obj entries =>
    simp only [root_tree_items] at h
    simp only [Json.wfKeys, Bool.and_eq_true, decide_eq_true_eq] at hw
    constructor
    · rw [tree_items_obj_ids entries items h]
      have hmm : (entries.map fun kv => JsonPointer.ObjectKey kv.1) =
          (entries.map Prod.fst).map JsonPointer.ObjectKey := by
        simp [List.map_map]
      rw [hmm]
      exact hw.1.map objectKey_injective
    · exact tree_items_obj_wfList entries
        (fun kv _ key t ht => tree_items_wf kv.2 key t ht) items h
  | arr elems =>
    simp only [root_tree_items] at h
    constructor
    · rw [tree_items_arr_ids elems 0 items h]
      exact (List.nodup_range' 0 elems.length).map arrayIdx_injective
    · exact tree_items_arr_wfList elems
        (fun v _ key t ht => tree_items_wf v key t ht) 0 items h
  | null =>
    simp only [root_tree_items, Option.some.injEq] at h
    subst h
    exact ⟨by simp, rfl⟩
  | bool b =>
    simp only [root_tree_items, Option.some.injEq] at h
    subst h
    exact ⟨by simp, rfl⟩
  | num n =>
    simp only [root_tree_items, Option.some.injEq] at h
    subst h
    exact ⟨by simp, rfl⟩
  | str s =>
    simp only [root_tree_items, Option.some.injEq] at h
    subst h
    exact ⟨by simp, rfl⟩

/-- Witness for C4 at the Scenario A document. -/
theorem sibling_ids_nodup_witness :
    scenario_value.wfKeys = true ∧
    root_tree_items scenario_value = some scenario_items ∧
    ((scenario_items.map TreeItem.identifier).Nodup ∧ wfList scenario_items = true) :=
  ⟨rfl, rfl, sibling_ids_nodup scenario_value scenario_items rfl rfl⟩

/-- C5: under the serde_json unique-keys invariant the projection is total —
root_tree_items returns a value and every tree_items call succeeds, so the
failure branch of the .unwrap() on TreeItem::new is unreachable. -/
theorem projection_total (v : Json) (key : JsonPointer) (hw : v.wfKeys = true) :
    (root_tree_items v).isSome = true ∧ (tree_items key v).isSome = true := by
  constructor
  · obtain ⟨items, h⟩ := root_tree_items_total v hw
    simp [h]
  · obtain ⟨t, h⟩ := tree_items_total v hw key
    simp [h]

/-- Witness for C5 at the Scenario A document and an arbitrary key. -/
theorem projection_total_witness :
    scenario_value.wfKeys = true ∧
    ((root_tree_items scenario_value).isSome = true ∧
      (tree_items (.ObjectKey "z") scenario_value).isSome = true) :=
  ⟨rfl, projection_total scenario_value (.ObjectKey "z") rfl⟩

/-- C6: Scenario A — the document mapping "a" to 1 and "b" to [2, 3]
projects to the rows "a: 1" (a leaf) then "b" (a container) whose children
are the leaves "0: 2" and "1: 3" in order; flattened with nothing expanded
the rows are "a: 1", "b", and expanding "b" inserts "0: 2", "1: 3"
immediately after it. -/
theorem scenario_a :
    root_tree_items scenario_value = some scenario_items ∧
    (scenario_items.map fun t => t.children) =
      [[], [.mk (.ArrayIdx 0) "0: 2" [], .mk (.ArrayIdx 1) "1: 3" []]] ∧
    flattenItems [] [] scenario_items = ["a: 1", "b"] ∧
    flattenItems [] [[JsonPointer.ObjectKey "b"]] scenario_items =
      ["a: 1", "b", "0: 2", "1: 3"] :=
  ⟨rfl, rfl, rfl, rfl⟩

/-- C7: two pointers are equal exactly when their tags and payloads match;
equal pointers feed identical streams to the hasher; the default value is
the None root marker. -/
theorem pointer_eq_hash_default (p q : JsonPointer) :
    (p = q ↔ JsonPointer.eqSpec p q) ∧
    (p = q → p.hashFeed = q.hashFeed) ∧
    (default : JsonPointer) = .None := by
  refine ⟨?_, fun h => by rw [h], rfl⟩
  cases p <;> cases q <;> simp [JsonPointer.eqSpec]

/-- Witness for C7 at two equal index pointers. -/
theorem pointer_eq_hash_default_witness :
    JsonPointer.eqSpec (.ArrayIdx 3) (.ArrayIdx 3) ∧
    (JsonPointer.ArrayIdx 3).hashFeed = (JsonPointer.ArrayIdx 3).hashFeed ∧
    (default : JsonPointer) = .None := by
  have h := pointer_eq_hash_default (.ArrayIdx 3) (.ArrayIdx 3)
  exact ⟨h.1.mp rfl, h.2.1 rfl, h.2.2⟩

/-- C8: the quit key is the only input event on which the dispatch ends the
loop normally; a read or parse failure before the loop exits with status 1;
a run that reaches the quit key exits with status 0. -/
theorem quit_only_termination {S : Type} (ops : TreeOps S) (s0 : S) (app : App S)
    (e : Event) (msg : String) (v : Json) (items : List TreeItem)
    (events : List Event) (a : App S)
    (hi : root_tree_items v = some items)
    (hq : run_app ops (App.new s0 items) events = .quitOk a) :
    (handleEvent ops app e = none ↔ e = .Key (.Ch 'q')) ∧
    mainExit ops s0 (Except.error msg) events = some 1 ∧
    mainExit ops s0 (Except.ok v) events = some 0 := by
  refine ⟨?_, rfl, ?_⟩
  · constructor
    · intro h
      cases e with
      | Key code =>
        cases code with
        | Ch c =>
          by_cases hcq : c = 'q'
          · subst hcq; rfl
          · by_cases hs : c = ' ' <;> by_cases hc : c = 'c' <;>
              simp [handleEvent, hcq, hs, hc] at h
        | Enter => simp [handleEvent] at h
        | Left => simp [handleEvent] at h
        | Right => simp [handleEvent] at h
        | Down => simp [handleEvent] at h
        | Up => simp [handleEvent] at h
        | Home => simp [handleEvent] at h
        | KEnd => simp [handleEvent] at h
        | PageDown => simp [handleEvent] at h
        | PageUp => simp [handleEvent] at h
        | F n => simp [handleEvent] at h
        | Other => simp [handleEvent] at h
      | Mouse kind => cases kind <;> simp [handleEvent] at h
      | Other => simp [handleEvent] at h
    · intro h
      subst h
      rfl
  · simp [mainExit, hi, hq]

/-- Witness for C8: the scalar document 1, the single-event run pressing the
quit key, and the non-quit Enter event. -/
theorem quit_only_termination_witness :
    root_tree_items (.num 1) = some [.mk .None "1" []] ∧
    run_app unitOps (App.new () [.mk .None "1" []]) [.Key (.Ch 'q')] =
      .quitOk (App.new () [.mk .None "1" []]) ∧
    ((handleEvent unitOps (App.new () [.mk .None "1" []]) (.Key .Enter) = none ↔
        Event.Key .Enter = .Key (.Ch 'q')) ∧
      mainExit unitOps () (Except.error "bad json") [.Key (.Ch 'q')] = some 1 ∧
      mainExit unitOps () (Except.ok (.num 1)) [.Key (.Ch 'q')] = some 0) :=
  ⟨rfl, rfl, quit_only_termination unitOps () (App.new () [.mk .None "1" []])
    (.Key .Enter) "bad json" (.num 1) [.mk .None "1" []] [.Key (.Ch 'q')]
    (App.new () [.mk .None "1" []]) rfl rfl⟩

/-- C9: the overlay-toggle character event flips show_cmd_popup and leaves
the widget state and the item hierarchy untouched, for every implementation
of the widget operations — so cursor, expansion and scroll state are all
unchanged. -/
theorem overlay_toggle_isolated {S : Type} (ops : TreeOps S) (app : App S) :
    handleEvent ops app (.Key (.Ch 'c')) =
      some ⟨app.state, app.items, !app.show_cmd_popup⟩ :=
  rfl

/-- C10: in a successful projection the None root marker never occurs in a
container root's node forest at all; it occurs only when the whole document
is a scalar, as the address of its single leaf; and None renders to the
empty string. -/
theorem root_marker_only_at_scalar_root (v : Json) (items : List TreeItem)
    (h : root_tree_items v = some items) :
    (v.isScalar = false → JsonPointer.None ∉ idsList items) ∧
    (v.isScalar = true → items = [.mk .None (render v) []]) ∧
    JsonPointer.toStr .None = "" := by
  refine ⟨?_, ?_, rfl⟩
  · intro hs
    cases v with
    | obj entries =>
      simp only [root_tree_items] at h
      exact tree_items_obj_noNone entries
        (fun kv _ key t ht => tree_items_noNone kv.2 key t ht) items h
    | arr elems =>
      simp only [root_tree_items] at h
      exact tree_items_arr_noNone elems
        (fun v2 _ key t ht => tree_items_noNone v2 key t ht) 0 items h
    | null => simp [Json.isScalar] at hs
    | bool b => simp [Json.isScalar] at hs
    | num n => simp [Json.isScalar] at hs
    | str s => simp [Json.isScalar] at hs
  · intro hs
    cases v with
    | obj entries => simp [Json.isScalar] at hs
    | arr elems => simp [Json.isScalar] at hs
    | null =>
      simp only [root_tree_items, Option.some.injEq] at h
      exact h.symm
    | bool b =>
      simp only [root_tree_items, Option.some.injEq] at h
      exact h.symm
    | num n =>
      simp only [root_tree_items, Option.some.injEq] at h
      exact h.symm
    | str s =>
      simp only [root_tree_items, Option.some.injEq] at h
      exact h.symm

/-- Witness for C10 at the Scenario A document. -/
theorem root_marker_only_at_scalar_root_witness :
    root_tree_items scenario_value = some scenario_items ∧
    ((scenario_value.isScalar = false → JsonPointer.None ∉ idsList scenario_items) ∧
      (scenario_value.isScalar = true → scenario_items = [.mk .None (render scenario_value) []]) ∧
      JsonPointer.toStr .None = "") :=
  ⟨rfl, root_marker_only_at_scalar_root scenario_value scenario_items rfl⟩
